import Mathlib

/-!
# Verification of the RoleFit AI-response normalization and validation pipeline

Shallow embedding of the evaluator pipeline of `apps/api` (files
`evaluator.ts`, `index.ts`, `src/utils/pdf.ts`) of the `ssnxd/rolefit`
repository, together with proofs about the claims of its specification.

Modelling conventions:
* JavaScript strings are modelled as `List Char` (one `Char` per UTF-16 code
  unit; none of the inputs of interest involve surrogate pairs).
* `JSON.parse` is modelled by an executable recursive-descent parser
  `jsonParse` over the JSON grammar that V8 implements; parse failure
  (a thrown `SyntaxError` in JS) is modelled as `none`.  V8's `SyntaxError`
  messages for `JSON.parse` always contain the substring `"JSON"`, so the
  `catch` branch of `Evaluator.evaluate` that tests
  `error.message.includes("JSON")` fires exactly on parse failure; the model
  maps parse failure directly to that branch's outcome.
* JSON numbers are modelled as exact rationals (`ℚ`); no claim depends on
  IEEE-754 rounding.
* The asynchronous boundaries (`fetch`, `pdfToText`) are modelled by explicit
  outcome types (`TransportOutcome`, `PdfOutcome`); a thrown exception in the
  source is a distinguished constructor, so "no exception escapes" is the
  totality of the modelled function.
-/

namespace Rolefit

/-! ## JavaScript whitespace and the `trim` of `String.prototype.trim`

The character class below is the ECMAScript `WhiteSpace ∪ LineTerminator`
set, which is also the class matched by `\s` in the fence regex of
`parseAIResponse`. -/

def isJsWs (c : Char) : Bool :=
  c = ' ' || c = '\t' || c = '\n' || c = '\r' || c = '\x0b' || c = '\x0c' ||
  c = '\u00A0' || c = '\u1680' || ('\u2000' ≤ c && c ≤ '\u200A') ||
  c = '\u2028' || c = '\u2029' || c = '\u202F' || c = '\u205F' ||
  c = '\u3000' || c = '\uFEFF'

/-- Leading-whitespace removal, the front half of `String.prototype.trim`. -/
def trimL (l : List Char) : List Char := l.dropWhile isJsWs

/-- Trailing-whitespace removal, the back half of `String.prototype.trim`. -/
def trimR (l : List Char) : List Char := (l.reverse.dropWhile isJsWs).reverse

/-- `String.prototype.trim`: remove leading and trailing JS whitespace. -/
def trim (l : List Char) : List Char := trimR (trimL l)

/-! ## `Evaluator.parseAIResponse` (evaluator.ts lines 267–286) -/

/-- The three-backtick fence delimiter. -/
def tick3 : List Char := ['`', '`', '`']

/-- The language-tag alternatives of the fence regex
`/^```(?:json|typescript|ts|javascript|js)?\s*\n?([\s\S]*?)\n?```$/`,
in the order the regex engine tries them. -/
def fenceTags : List (List Char) :=
  ["json".toList, "typescript".toList, "ts".toList, "javascript".toList,
   "js".toList]

/-- Whether the (already trimmed) text matches the fence regex at all.
Since the capture group `([\s\S]*?)` matches any content, the anchored regex
matches exactly when the text starts with ```` ``` ````, ends with ```` ``` ````,
and the two fences do not overlap (length at least 6). -/
def fenceShape (l : List Char) : Bool :=
  decide (6 ≤ l.length) && tick3.isPrefixOf l && tick3.isSuffixOf l

/-- The text strictly between the two fences. -/
def fenceMiddle (l : List Char) : List Char := (l.drop 3).take (l.length - 6)

/-- Drop the language tag the regex alternation
`(?:json|typescript|ts|javascript|js)?` consumes: the first alternative, in
regex order, that is a prefix of the text; nothing when none matches. -/
def dropFenceTag (l : List Char) : List Char :=
  match fenceTags.find? (fun t => t.isPrefixOf l) with
  | some t => l.drop t.length
  | none => l

/-- The string captured by group 1 of the fence regex on a fence-shaped
string: after the opening fence and optional tag, `\s*\n?` greedily removes
all leading whitespace, the lazy group stops as early as possible, and the
trailing `\n?` lets at most one final newline stay outside the group. -/
def capturedGroup (l : List Char) : List Char :=
  let r := (dropFenceTag (fenceMiddle l)).dropWhile isJsWs
  match r.getLast? with
  | some '\n' => r.dropLast
  | _ => r

/-- The replacement `/^`{1,3}|`{1,3}$/g` → `""`: remove a run of at most
three backticks at the very start, then a run of at most three backticks at
the very end of what remains. -/
def stripTicks (l : List Char) : List Char :=
  let k := min 3 (l.takeWhile (· = '`')).length
  let l1 := l.drop k
  let m := min 3 (l1.reverse.takeWhile (· = '`')).length
  (l1.reverse.drop m).reverse

/-- `Evaluator.parseAIResponse`: trim, strip a code fence when the whole
text is one fenced block with non-empty captured content (the source tests
`match && match[1]`, and an empty capture is falsy), strip residual edge
backtick runs, trim again. -/
def parseAIResponse (text : List Char) : List Char :=
  let cleanText := trim text
  let cleanText :=
    if fenceShape cleanText then
      let g := capturedGroup cleanText
      if g.isEmpty then cleanText else trim g
    else cleanText
  trim (stripTicks cleanText)

example : parseAIResponse "```json\n\x7b\"a\":1\x7d\n```".toList = "\x7b\"a\":1\x7d".toList := by decide
example : parseAIResponse "  \x7b\"a\":1\x7d ".toList = "\x7b\"a\":1\x7d".toList := by decide
example : parseAIResponse "```json```".toList = "json".toList := by decide
example : parseAIResponse "`x`".toList = "x".toList := by decide
example : parseAIResponse "```ts\nhi\n```".toList = "hi".toList := by decide
example : parseAIResponse "```\n\n```".toList = ([] : List Char) := by decide
example : parseAIResponse "```json\n\n```".toList = "json".toList := by decide

/-! ## A model of `JSON.parse`

The values `JSON.parse` can produce. An object literal is kept as its list
of key/value pairs in source order; as in JavaScript, a later duplicate key
overrides an earlier one, which `lookupField` reflects by scanning from the
back. -/

inductive JsonValue where
  | null
  | bool (b : Bool)
  | num (q : ℚ)
  | str (s : String)
  | arr (elems : List JsonValue)
  | obj (fields : List (String × JsonValue))

/-- JSON's whitespace (RFC 8259 / ECMA-404): space, tab, newline, return. -/
def isJsonWs (c : Char) : Bool :=
  c = ' ' || c = '\t' || c = '\n' || c = '\r'

/-- Skip insignificant whitespace between JSON tokens. -/
def skipWs (l : List Char) : List Char := l.dropWhile isJsonWs

/-- Value of a list of decimal digits, most significant first. -/
def digitsVal (ds : List Char) : Nat :=
  ds.foldl (fun a c => a * 10 + (c.toNat - '0'.toNat)) 0

/-- Hexadecimal digit value for the `\uXXXX` string escape. -/
def hexVal? (c : Char) : Option Nat :=
  if '0' ≤ c ∧ c ≤ '9' then some (c.toNat - '0'.toNat)
  else if 'a' ≤ c ∧ c ≤ 'f' then some (c.toNat - 'a'.toNat + 10)
  else if 'A' ≤ c ∧ c ≤ 'F' then some (c.toNat - 'A'.toNat + 10)
  else none

/-- Parse the body of a JSON string literal, the opening quote already
consumed; returns the decoded characters and the input after the closing
quote.  Raw control characters below U+0020 are rejected, escapes follow
the JSON grammar. -/
def escChar? (e : Char) : Option Char :=
  if e = '"' then some '"'
  else if e = '\\' then some '\\'
  else if e = '/' then some '/'
  else if e = 'b' then some '\x08'
  else if e = 'f' then some '\x0c'
  else if e = 'n' then some '\n'
  else if e = 'r' then some '\r'
  else if e = 't' then some '\t'
  else none

/-- Decode the four hex digits of a `\uXXXX` escape. -/
def hex4? (a b c d : Char) : Option Nat :=
  match hexVal? a, hexVal? b, hexVal? c, hexVal? d with
  | some ha, some hb, some hc, some hd =>
    some (((ha * 16 + hb) * 16 + hc) * 16 + hd)
  | _, _, _, _ => none

def parseStringBody : List Char → Option (List Char × List Char)
  | [] => none
  | '"' :: rest => some ([], rest)
  | '\\' :: 'u' :: a :: b :: c :: d :: rest =>
    match hex4? a b c d with
    | some n => (parseStringBody rest).map (fun (s, r) => (Char.ofNat n :: s, r))
    | none => none
  | '\\' :: e :: rest =>
    match escChar? e with
    | some ec => (parseStringBody rest).map (fun (s, r) => (ec :: s, r))
    | none => none
  | c :: rest =>
    if c.toNat < 0x20 then none
    else (parseStringBody rest).map (fun (s, r) => (c :: s, r))

/-- Numeric value of a parsed JSON number literal: sign, integer digits,
fraction digits, exponent sign and exponent digits, as an exact rational. -/
def mkNum (neg : Bool) (intDs fracDs : List Char) (esign : Int)
    (expDs : List Char) : ℚ :=
  let mant : Int := (digitsVal intDs * 10 ^ fracDs.length + digitsVal fracDs : Nat)
  let mant : Int := if neg then -mant else mant
  let e : Int := esign * (digitsVal expDs : Int) - (fracDs.length : Int)
  if 0 ≤ e then mkRat (mant * 10 ^ e.toNat) 1 else mkRat mant (10 ^ (-e).toNat)

/-- Parse the mandatory digits of an exponent and build the value. -/
def parseExpDigits (neg : Bool) (intDs fracDs : List Char) (esign : Int)
    (r2 : List Char) : Option (ℚ × List Char) :=
  let expDs := r2.takeWhile Char.isDigit
  if expDs.isEmpty then none
  else some (mkNum neg intDs fracDs esign expDs, r2.dropWhile Char.isDigit)

/-- Parse the optional exponent part of a number and build its value. -/
def parseExpPart (neg : Bool) (intDs fracDs : List Char) (r : List Char) :
    Option (ℚ × List Char) :=
  match r with
  | 'e' :: '+' :: r2 => parseExpDigits neg intDs fracDs 1 r2
  | 'e' :: '-' :: r2 => parseExpDigits neg intDs fracDs (-1) r2
  | 'e' :: r2 => parseExpDigits neg intDs fracDs 1 r2
  | 'E' :: '+' :: r2 => parseExpDigits neg intDs fracDs 1 r2
  | 'E' :: '-' :: r2 => parseExpDigits neg intDs fracDs (-1) r2
  | 'E' :: r2 => parseExpDigits neg intDs fracDs 1 r2
  | _ => some (mkNum neg intDs fracDs 1 [], r)

/-- Parse the optional fraction part of a number, then its exponent. -/
def parseFracPart (neg : Bool) (intDs : List Char) (r : List Char) :
    Option (ℚ × List Char) :=
  match r with
  | '.' :: r2 =>
    let fracDs := r2.takeWhile Char.isDigit
    if fracDs.isEmpty then none
    else parseExpPart neg intDs fracDs (r2.dropWhile Char.isDigit)
  | _ => parseExpPart neg intDs [] r

/-- Parse the digits of a number after the optional minus sign. -/
def parseNumberBody (neg : Bool) (l1 : List Char) : Option (ℚ × List Char) :=
  match l1 with
  | c :: _ =>
    if c.isDigit then
      let intDs := l1.takeWhile Char.isDigit
      if c = '0' ∧ 1 < intDs.length then none
      else parseFracPart neg intDs (l1.dropWhile Char.isDigit)
    else none
  | [] => none

/-- Parse a JSON number literal: `-? (0 | [1-9][0-9]*) (. [0-9]+)?
((e|E) (+|-)? [0-9]+)?`.  A leading zero followed by more digits is
rejected, as `JSON.parse` rejects `01`. -/
def parseNumber (l : List Char) : Option (ℚ × List Char) :=
  match l with
  | '-' :: l1 => parseNumberBody true l1
  | l1 => parseNumberBody false l1

mutual

/-- Parse one JSON value, fuel-bounded recursive descent.  Leading
whitespace is skipped; trailing whitespace is left in the remainder. -/
def parseValue : Nat → List Char → Option (JsonValue × List Char)
  | 0, _ => none
  | fuel + 1, l =>
    match skipWs l with
    | '{' :: r =>
      match skipWs r with
      | '}' :: r2 => some (.obj [], r2)
      | _ => parseMembers fuel r []
    | '[' :: r =>
      match skipWs r with
      | ']' :: r2 => some (.arr [], r2)
      | _ => parseElements fuel r []
    | '"' :: r => (parseStringBody r).map (fun (s, rest) => (.str ⟨s⟩, rest))
    | 't' :: 'r' :: 'u' :: 'e' :: r => some (.bool true, r)
    | 'f' :: 'a' :: 'l' :: 's' :: 'e' :: r => some (.bool false, r)
    | 'n' :: 'u' :: 'l' :: 'l' :: r => some (.null, r)
    | l' => (parseNumber l').map (fun (q, rest) => (.num q, rest))

/-- Parse the members of a non-empty object, after the `{` or a `,`. -/
def parseMembers : Nat → List Char → List (String × JsonValue) →
    Option (JsonValue × List Char)
  | 0, _, _ => none
  | fuel + 1, l, acc =>
    match skipWs l with
    | '"' :: r =>
      match parseStringBody r with
      | some (k, r1) =>
        match skipWs r1 with
        | ':' :: r2 =>
          match parseValue fuel r2 with
          | some (v, r3) =>
            match skipWs r3 with
            | ',' :: r4 => parseMembers fuel r4 (acc ++ [(⟨k⟩, v)])
            | '}' :: r4 => some (.obj (acc ++ [(⟨k⟩, v)]), r4)
            | _ => none
          | none => none
        | _ => none
      | none => none
    | _ => none

/-- Parse the elements of a non-empty array, after the `[` or a `,`. -/
def parseElements : Nat → List Char → List JsonValue →
    Option (JsonValue × List Char)
  | 0, _, _ => none
  | fuel + 1, l, acc =>
    match parseValue fuel l with
    | some (v, r) =>
      match skipWs r with
      | ',' :: r2 => parseElements fuel r2 (acc ++ [v])
      | ']' :: r2 => some (.arr (acc ++ [v]), r2)
      | _ => none
    | none => none

end

/-- `JSON.parse`: parse one value, then require only whitespace to remain.
The fuel `l.length + 1` dominates the recursion depth, every recursive call
consuming at least one character. -/
def jsonParse (l : List Char) : Option JsonValue :=
  match parseValue (l.length + 1) l with
  | some (v, rest) => if skipWs rest = [] then some v else none
  | none => none

example : jsonParse "\x7b\"a\":1\x7d".toList =
    some (.obj [("a", .num 1)]) := by rfl
example : jsonParse " [1, 2.5, \"x\", true, null] ".toList =
    some (.arr [.num 1, .num (mkRat 5 2), .str "x", .bool true, .null]) := by rfl
example : jsonParse "\x7b\"a\":1,".toList = none := by rfl
example : jsonParse "01".toList = none := by rfl
example : jsonParse "1e2".toList = some (.num 100) := by rfl
example : jsonParse "x".toList = none := by rfl

/-! ## `Evaluator.isValidEvaluatorResult` (evaluator.ts lines 293–303) -/

/-- JavaScript `typeof` on a value produced by `JSON.parse` (`null` and
arrays are both `"object"`). -/
def jsTypeof : JsonValue → String
  | .null => "object"
  | .bool _ => "boolean"
  | .num _ => "number"
  | .str _ => "string"
  | .arr _ => "object"
  | .obj _ => "object"

/-- Whether the value is JavaScript's `null` (the `result !== null` test). -/
def isNullValue : JsonValue → Bool
  | .null => true
  | _ => false

/-- Property lookup in an object's field list: as in JavaScript, a later
duplicate key overrides an earlier one. -/
def lookupField (fields : List (String × JsonValue)) (k : String) :
    Option JsonValue :=
  (fields.reverse.find? (fun p => p.1 = k)).map Prod.snd

/-- JavaScript property access `v[k]`: `undefined` (here `none`) on
anything that is not an object with that key. -/
def getField (v : JsonValue) (k : String) : Option JsonValue :=
  match v with
  | .obj fields => lookupField fields k
  | _ => none

/-- `typeof v[k]` as a string; a missing property is `"undefined"`. -/
def fieldTypeof (v : JsonValue) (k : String) : String :=
  match getField v k with
  | some w => jsTypeof w
  | none => "undefined"

/-- `Evaluator.isValidEvaluatorResult`: the conjunction of `typeof` checks
the source performs. -/
def isValidEvaluatorResult (v : JsonValue) : Bool :=
  jsTypeof v == "object" &&
  !isNullValue v &&
  fieldTypeof v "score" == "number" &&
  fieldTypeof v "summary" == "string" &&
  fieldTypeof v "strengths" == "string" &&
  fieldTypeof v "gaps" == "string" &&
  fieldTypeof v "suggestions" == "string"

/-! ## The Gemini response shape and `Evaluator.evaluate`
(evaluator.ts lines 100–260) -/

/-- One part of a Gemini content block; only the optional `text` field is
read by the evaluator. -/
structure ResponsePart where
  text : Option (List Char)

/-- The optional `content.parts` of a candidate. -/
structure ResponseContent where
  parts : Option (List ResponsePart)

/-- One reply candidate. -/
structure ResponseCandidate where
  content : Option ResponseContent

/-- The `GenerateContentResponse` shape, restricted to the path the
evaluator reads: `candidates?.[0]?.content?.parts?.[0]?.text`. -/
structure GenResponse where
  candidates : Option (List ResponseCandidate)

/-- The optional-chaining read
`response.candidates?.[0]?.content?.parts?.[0]?.text`. -/
def extractText (r : GenResponse) : Option (List Char) :=
  (((((r.candidates.bind List.head?).bind
    ResponseCandidate.content).bind ResponseContent.parts).bind
    List.head?).bind ResponsePart.text)

/-- The transport-level outcome of the `fetch` call inside `queryGemini`:
a 2xx reply whose body parsed (`success`), a non-2xx status (`res.ok`
false, which `queryGemini` turns into a thrown `Error`), a network failure
(`fetch` rejected), or a 2xx reply whose body was not valid JSON
(`res.json()` threw). -/
inductive TransportOutcome where
  | success (resp : GenResponse)
  | httpError (status : Nat)
  | networkError
  | invalidJsonBody

/-- `Evaluator.queryGemini`: every failure is caught inside the method and
converted to `null`; only a parsed 2xx body is returned. -/
def queryGemini : TransportOutcome → Option GenResponse
  | .success r => some r
  | .httpError _ => none
  | .networkError => none
  | .invalidJsonBody => none

/-- The tri-state `{ ok, message, result }` envelope every evaluation
returns; `result` holds the parsed JSON object the source passes through
unchanged after validation. -/
structure EvalOutcome where
  ok : Bool
  message : String
  result : Option JsonValue

/-- The five user-facing outcome messages of `Evaluator.evaluate`. -/
def unavailableOutcome : EvalOutcome :=
  ⟨false, "AI service is currently unavailable. Please try again later.", none⟩

def emptyOutcome : EvalOutcome :=
  ⟨false, "AI service returned an empty response. Please try again.", none⟩

def incompleteOutcome : EvalOutcome :=
  ⟨false, "AI returned incomplete analysis. Please try again.", none⟩

def malformedOutcome : EvalOutcome :=
  ⟨false,
   "Failed to process AI analysis. The AI response may be malformed or contain unexpected formatting.",
   none⟩

def pdfErrorOutcome : EvalOutcome :=
  ⟨false,
   "Failed to read PDF content. Please ensure the files are valid PDFs and try again.",
   none⟩

def successOutcome (v : JsonValue) : EvalOutcome :=
  ⟨true, "Resume successfully analyzed! Check the results below.", some v⟩

/-- The response-handling core of `Evaluator.evaluate`, lines 179–221 and
the `catch` at 239–250: no reply means service unavailable; a missing or
empty (falsy) text part means empty response; then normalize with
`parseAIResponse`, `JSON.parse` (whose `SyntaxError` is caught by the
`includes("JSON")` branch), and validate with `isValidEvaluatorResult`. -/
def evaluateCore (resp : Option GenResponse) : EvalOutcome :=
  match resp with
  | none => unavailableOutcome
  | some r =>
    match extractText r with
    | none => emptyOutcome
    | some t =>
      if t.isEmpty then emptyOutcome
      else
        match jsonParse (parseAIResponse t) with
        | none => malformedOutcome
        | some v =>
          if isValidEvaluatorResult v then successOutcome v
          else incompleteOutcome

/-- The outcome of one `pdfToText` call: extracted text, or the thrown
`Error("Failed to extract text from PDF: ...")` that `evaluate`'s catch
recognizes by its message. -/
inductive PdfOutcome where
  | ok (text : List Char)
  | extractError

/-- `Evaluator.evaluate` end to end: extract the two texts (the first
parameter is extracted first; either failure lands in the catch branch for
PDF errors), query Gemini, then run the response-handling core. -/
def evaluate (jdParam cvParam : PdfOutcome) (transport : TransportOutcome) :
    EvalOutcome :=
  match jdParam with
  | .extractError => pdfErrorOutcome
  | .ok _ =>
    match cvParam with
    | .extractError => pdfErrorOutcome
    | .ok _ => evaluateCore (queryGemini transport)

/-! ## The prompt payload of `queryGemini` (evaluator.ts lines 107–123) and
the argument order of the `analyze` handler (index.ts lines 55–64) -/

/-- The fixed user prompt `Evaluator.prompt` (its exact text is irrelevant
to the claims; only its position as the first part matters). -/
def promptText : String :=
  "\nReturn your answer strictly in this JSON format:\n\n\x7b\n  \"score\": <number>,                // Overall match score from 0 to 100\n  \"summary\": \"<short paragraph>\",   // One-paragraph overview of alignment\n  \"strengths\": \"<bullet points>\",   // Bullet list of well-aligned skills or experience\n  \"gaps\": \"<bullet points>\",        // Bullet list of missing or weak areas\n  \"suggestions\": \"<bullet points>\"  // Bullet list of what can be improved in the resume to better fit the job\n\x7d\n\n...\n\nReturn the result as raw JSON without any Markdown formatting or code fences.\n"

/-- The `parts` array of the Gemini request payload, as `queryGemini`
builds it from its `jobText` and `resumeText` parameters. -/
def geminiPayloadParts (jobText resumeText : String) : List String :=
  [promptText,
   "\n\n**JOB DESCRIPTION:**\n" ++ jobText,
   "\n\n**RESUME/CV:**\n" ++ resumeText]

/-- A file, reduced to the text `pdfToText` extracts from it. -/
structure FileModel where
  text : String

/-- The `(jobText, resumeText)` pair `Evaluator.evaluate` hands to
`queryGemini`: the text of its first parameter (named `jd`) and of its
second (named `cv`), in that order. -/
def evaluateQueryArgs (jd cv : FileModel) : String × String :=
  (jd.text, cv.text)

/-- The payload parts produced by the `analyze` handler for an upload of a
`cv` file and a `jd` file: the source calls `evaluator.evaluate(cv, jd)`,
so the `cv` file is bound to `evaluate`'s first (`jd`) parameter and the
`jd` file to its second (`cv`) parameter. -/
def analyzeParts (cv jd : FileModel) : List String :=
  let args := evaluateQueryArgs cv jd
  geminiPayloadParts args.1 args.2

/-! ## The upload gate (index.ts lines 16–54) -/

/-- An uploaded file as the zod schema sees it: its byte size and declared
media type. -/
structure UploadFile where
  size : Nat
  type : String

def MAX_FILE_SIZE : Nat := 5 * 1024 * 1024

def ALLOWED_FILE_TYPES : List String := ["application/pdf"]

/-- `pdfFileSchema`: the two `refine` checks, `file.size <= MAX_FILE_SIZE`
and `ALLOWED_FILE_TYPES.includes(file.type)`. -/
def pdfFileCheck (f : UploadFile) : Bool :=
  decide (f.size ≤ MAX_FILE_SIZE) && ALLOWED_FILE_TYPES.contains f.type

/-- The `analyze` input gate: the `zfd.formData` schema requires both named
files to be present and each to pass `pdfFileSchema`; this runs before the
mutation body (and hence before any text extraction). -/
def analyzeGate (cv jd : Option UploadFile) : Bool :=
  match cv, jd with
  | some c, some j => pdfFileCheck c && pdfFileCheck j
  | _, _ => false

/-! ## Infrastructure lemmas on `dropWhile`, `trim` and the fence shape -/

lemma dropWhile_head?_not {α : Type} (p : α → Bool) (l : List α) {a : α}
    (h : (l.dropWhile p).head? = some a) : p a = false := by
  induction l with
  | nil => simp at h
  | cons b t ih =>
    rw [List.dropWhile_cons] at h
    by_cases hb : p b
    · rw [if_pos hb] at h
      exact ih h
    · rw [if_neg hb] at h
      obtain rfl : b = a := by simpa using h
      simpa using hb

lemma dropWhile_idem {α : Type} (p : α → Bool) (l : List α) :
    (l.dropWhile p).dropWhile p = l.dropWhile p := by
  cases h : l.dropWhile p with
  | nil => rfl
  | cons a t =>
    have ha : p a = false := dropWhile_head?_not p l (by rw [h]; rfl)
    rw [List.dropWhile_cons, if_neg (by simp [ha])]

lemma trimL_idem (l : List Char) : trimL (trimL l) = trimL l :=
  dropWhile_idem _ _

lemma trimR_idem (l : List Char) : trimR (trimR l) = trimR l := by
  unfold trimR
  rw [List.reverse_reverse, dropWhile_idem]

lemma trimR_prefix (l : List Char) : trimR l <+: l := by
  unfold trimR
  have h := List.dropWhile_suffix (l := l.reverse) isJsWs
  simpa using List.reverse_prefix.mpr h

lemma head?_trimR (l : List Char) (h : trimR l ≠ []) :
    (trimR l).head? = l.head? := by
  obtain ⟨t, ht⟩ := trimR_prefix l
  cases hz : trimR l with
  | nil => exact absurd hz h
  | cons a s =>
    rw [← ht, hz]
    simp

lemma head_not_ws_of_trimL_fix {l : List Char} {a : Char}
    (hfix : trimL l = l) (ha : l.head? = some a) : isJsWs a = false := by
  cases l with
  | nil => simp at ha
  | cons b t =>
    have hab : b = a := by simpa using ha
    by_contra hws
    have hws' : isJsWs b = true := by
      rw [hab]
      simpa using hws
    have h2 : trimL (b :: t) = trimL t := by
      simp [trimL, List.dropWhile_cons, hws']
    rw [h2] at hfix
    have hle : (trimL t).length ≤ t.length :=
      (List.dropWhile_suffix isJsWs).length_le
    rw [hfix] at hle
    simp at hle

lemma trim_trim (l : List Char) : trim (trim l) = trim l := by
  show trimR (trimL (trimR (trimL l))) = trimR (trimL l)
  have h1 : trimL (trimR (trimL l)) = trimR (trimL l) := by
    cases hz : trimR (trimL l) with
    | nil => rfl
    | cons a s =>
      have hh : (trimR (trimL l)).head? = (trimL l).head? :=
        head?_trimR _ (by simp [hz])
      rw [hz] at hh
      have ha : isJsWs a = false :=
        head_not_ws_of_trimL_fix (trimL_idem l) hh.symm
      show trimL (a :: s) = a :: s
      simp [trimL, List.dropWhile_cons, ha]
  rw [h1]
  exact trimR_idem _

lemma stripTicks_of_no_edge_ticks (l : List Char)
    (h1 : l.head? ≠ some '`') (h2 : l.getLast? ≠ some '`') :
    stripTicks l = l := by
  have htw : l.takeWhile (· = '`') = [] := by
    cases l with
    | nil => rfl
    | cons a t =>
      have ha : ¬ (a = '`') := fun e => h1 (by simp [e])
      simp [List.takeWhile_cons, ha]
  have hrw : l.reverse.takeWhile (· = '`') = [] := by
    cases hr : l.reverse with
    | nil => rfl
    | cons a t =>
      have hl : l.getLast? = some a := by
        rw [← List.head?_reverse, hr]
        rfl
      have ha : ¬ (a = '`') := fun e => h2 (hl.trans (by simp [e]))
      simp [List.takeWhile_cons, ha]
  simp [stripTicks, htw, hrw]

lemma fenceShape_head {l : List Char} (h : fenceShape l = true) :
    l.head? = some '`' := by
  simp only [fenceShape, Bool.and_eq_true, decide_eq_true_eq] at h
  obtain ⟨⟨-, hpre⟩, -⟩ := h
  obtain ⟨t, ht⟩ := List.isPrefixOf_iff_prefix.mp hpre
  rw [← ht]
  rfl

lemma fenceShape_getLast {l : List Char} (h : fenceShape l = true) :
    l.getLast? = some '`' := by
  simp only [fenceShape, Bool.and_eq_true, decide_eq_true_eq] at h
  obtain ⟨-, hsuf⟩ := h
  obtain ⟨t, ht⟩ := List.isSuffixOf_iff_suffix.mp hsuf
  rw [← ht]
  show (t ++ ['`', '`', '`']).getLast? = some '`'
  rw [show t ++ ['`', '`', '`'] = (t ++ ['`', '`']) ++ ['`'] by simp]
  exact List.getLast?_concat _

/-- Core pass-through fact: an input whose trimmed form neither starts nor
ends with a backtick is returned trimmed but otherwise unchanged. -/
lemma parseAIResponse_of_no_edge_ticks (l : List Char)
    (h1 : (trim l).head? ≠ some '`') (h2 : (trim l).getLast? ≠ some '`') :
    parseAIResponse l = trim l := by
  have hfs : fenceShape (trim l) = false := by
    cases hf : fenceShape (trim l) with
    | false => rfl
    | true => exact absurd (fenceShape_head hf) h1
  have hexp : parseAIResponse l = trim (stripTicks (trim l)) := by
    simp [parseAIResponse, hfs]
  rw [hexp, stripTicks_of_no_edge_ticks _ h1 h2]
  exact trim_trim l

/-! ## Shape of the validator's acceptance set -/

lemma jsTypeof_eq_number_iff (w : JsonValue) :
    jsTypeof w = "number" ↔ ∃ q, w = .num q := by
  constructor
  · intro h
    cases w with
    | num q => exact ⟨q, rfl⟩
    | null => exact absurd (show ("object" : String) = "number" from h) (by decide)
    | bool b => exact absurd (show ("boolean" : String) = "number" from h) (by decide)
    | str s => exact absurd (show ("string" : String) = "number" from h) (by decide)
    | arr xs => exact absurd (show ("object" : String) = "number" from h) (by decide)
    | obj fs => exact absurd (show ("object" : String) = "number" from h) (by decide)
  · rintro ⟨q, rfl⟩
    rfl

lemma jsTypeof_eq_string_iff (w : JsonValue) :
    jsTypeof w = "string" ↔ ∃ s, w = .str s := by
  constructor
  · intro h
    cases w with
    | str s => exact ⟨s, rfl⟩
    | null => exact absurd (show ("object" : String) = "string" from h) (by decide)
    | bool b => exact absurd (show ("boolean" : String) = "string" from h) (by decide)
    | num q => exact absurd (show ("number" : String) = "string" from h) (by decide)
    | arr xs => exact absurd (show ("object" : String) = "string" from h) (by decide)
    | obj fs => exact absurd (show ("object" : String) = "string" from h) (by decide)
  · rintro ⟨s, rfl⟩
    rfl

lemma fieldTypeof_eq_number_iff (v : JsonValue) (k : String) :
    fieldTypeof v k = "number" ↔ ∃ q, getField v k = some (.num q) := by
  unfold fieldTypeof
  cases hg : getField v k with
  | none =>
    constructor
    · intro h
      exact absurd h (by decide)
    · rintro ⟨q, hq⟩
      cases hq
  | some w =>
    rw [jsTypeof_eq_number_iff]
    constructor
    · rintro ⟨q, rfl⟩
      exact ⟨q, rfl⟩
    · rintro ⟨q, hq⟩
      exact ⟨q, by injection hq⟩

lemma fieldTypeof_eq_string_iff (v : JsonValue) (k : String) :
    fieldTypeof v k = "string" ↔ ∃ s, getField v k = some (.str s) := by
  unfold fieldTypeof
  cases hg : getField v k with
  | none =>
    constructor
    · intro h
      exact absurd h (by decide)
    · rintro ⟨s, hs⟩
      cases hs
  | some w =>
    rw [jsTypeof_eq_string_iff]
    constructor
    · rintro ⟨s, rfl⟩
      exact ⟨s, rfl⟩
    · rintro ⟨s, hs⟩
      exact ⟨s, by injection hs⟩

/-- The acceptance shape of `isValidEvaluatorResult`, stated from the
spec's words: a (non-null) object literal whose `score` field holds a
number and whose `summary`, `strengths`, `gaps` and `suggestions` fields
hold strings.  (Extra fields are not constrained.) -/
def RequiredShape (v : JsonValue) : Prop :=
  ∃ fields, v = .obj fields ∧
    (∃ q, getField v "score" = some (.num q)) ∧
    (∃ s, getField v "summary" = some (.str s)) ∧
    (∃ s, getField v "strengths" = some (.str s)) ∧
    (∃ s, getField v "gaps" = some (.str s)) ∧
    (∃ s, getField v "suggestions" = some (.str s))

lemma valid_iff_requiredShape (v : JsonValue) :
    isValidEvaluatorResult v = true ↔ RequiredShape v := by
  constructor
  · intro h
    simp only [isValidEvaluatorResult, Bool.and_eq_true, beq_iff_eq,
      Bool.not_eq_true'] at h
    obtain ⟨⟨⟨⟨⟨⟨hobj, hnull⟩, hsc⟩, hsum⟩, hstr⟩, hgap⟩, hsug⟩ := h
    cases v with
    | null => simp [isNullValue] at hnull
    | bool b => exact absurd (show ("boolean" : String) = "object" from hobj) (by decide)
    | num q => exact absurd (show ("number" : String) = "object" from hobj) (by decide)
    | str s => exact absurd (show ("string" : String) = "object" from hobj) (by decide)
    | arr xs => exact absurd (show ("undefined" : String) = "number" from hsc) (by decide)
    | obj fs =>
      exact ⟨fs, rfl, (fieldTypeof_eq_number_iff _ _).mp hsc,
        (fieldTypeof_eq_string_iff _ _).mp hsum,
        (fieldTypeof_eq_string_iff _ _).mp hstr,
        (fieldTypeof_eq_string_iff _ _).mp hgap,
        (fieldTypeof_eq_string_iff _ _).mp hsug⟩
  · rintro ⟨fs, rfl, hsc, hsum, hstr, hgap, hsug⟩
    simp only [isValidEvaluatorResult, Bool.and_eq_true, beq_iff_eq,
      Bool.not_eq_true']
    exact ⟨⟨⟨⟨⟨⟨rfl, rfl⟩, (fieldTypeof_eq_number_iff _ _).mpr hsc⟩,
      (fieldTypeof_eq_string_iff _ _).mpr hsum⟩,
      (fieldTypeof_eq_string_iff _ _).mpr hstr⟩,
      (fieldTypeof_eq_string_iff _ _).mpr hgap⟩,
      (fieldTypeof_eq_string_iff _ _).mpr hsug⟩

/-! ## Outcome case analysis of the evaluation pipeline -/

lemma evaluateCore_cases (o : Option GenResponse) :
    evaluateCore o = unavailableOutcome ∨ evaluateCore o = emptyOutcome ∨
    evaluateCore o = malformedOutcome ∨ evaluateCore o = incompleteOutcome ∨
    ∃ v, isValidEvaluatorResult v = true ∧
      evaluateCore o = successOutcome v := by
  cases o with
  | none => exact Or.inl rfl
  | some r =>
    have hred : evaluateCore (some r) =
        (match extractText r with
         | none => emptyOutcome
         | some t =>
           if t.isEmpty then emptyOutcome
           else
             match jsonParse (parseAIResponse t) with
             | none => malformedOutcome
             | some v =>
               if isValidEvaluatorResult v then successOutcome v
               else incompleteOutcome) := rfl
    rw [hred]
    split
    · exact Or.inr (Or.inl rfl)
    · split
      · exact Or.inr (Or.inl rfl)
      · split
        · exact Or.inr (Or.inr (Or.inl rfl))
        · split
          · rename_i v hparse hv
            exact Or.inr (Or.inr (Or.inr (Or.inr ⟨v, hv, rfl⟩)))
          · exact Or.inr (Or.inr (Or.inr (Or.inl rfl)))

/-- Reduction of `evaluateCore` once a non-empty text part is extracted. -/
lemma evaluateCore_eq_of_text (r : GenResponse) (t : List Char)
    (hx : extractText r = some t) (hne : t ≠ []) :
    evaluateCore (some r) =
      (match jsonParse (parseAIResponse t) with
       | none => malformedOutcome
       | some v =>
         if isValidEvaluatorResult v then successOutcome v
         else incompleteOutcome) := by
  have hred : evaluateCore (some r) =
      (match extractText r with
       | none => emptyOutcome
       | some u =>
         if u.isEmpty then emptyOutcome
         else
           match jsonParse (parseAIResponse u) with
           | none => malformedOutcome
           | some v =>
             if isValidEvaluatorResult v then successOutcome v
             else incompleteOutcome) := rfl
  rw [hred, hx]
  have ht : t.isEmpty = false := by
    cases t with
    | nil => exact absurd rfl hne
    | cons a s => rfl
  show (if t.isEmpty = true then emptyOutcome
    else
      match jsonParse (parseAIResponse t) with
      | none => malformedOutcome
      | some v =>
        if isValidEvaluatorResult v then successOutcome v
        else incompleteOutcome) =
    (match jsonParse (parseAIResponse t) with
     | none => malformedOutcome
     | some v =>
       if isValidEvaluatorResult v then successOutcome v
       else incompleteOutcome)
  rw [ht]
  simp

/-- Reduction of `evaluateCore` once the cleaned text has parsed. -/
lemma evaluateCore_eq_of_parsed (r : GenResponse) (t : List Char)
    (v : JsonValue) (hx : extractText r = some t) (hne : t ≠ [])
    (hp : jsonParse (parseAIResponse t) = some v) :
    evaluateCore (some r) =
      (if isValidEvaluatorResult v then successOutcome v
       else incompleteOutcome) := by
  rw [evaluateCore_eq_of_text r t hx hne, hp]

/-! ## Concrete inputs shared by the claims -/

/-- A Gemini response whose single candidate carries one text part. -/
def mkTextResponse (t : List Char) : GenResponse :=
  ⟨some [⟨some ⟨some [⟨some t⟩]⟩⟩]⟩

/-- The spec's well-formed round-trip reply. -/
def wellFormedReply : List Char :=
  "\x7b\"score\":85,\"summary\":\"s\",\"strengths\":\"a\",\"gaps\":\"b\",\"suggestions\":\"c\"\x7d".toList

/-- The evaluation result the round-trip reply parses to. -/
def wellFormedResult : JsonValue :=
  .obj [("score", .num 85), ("summary", .str "s"), ("strengths", .str "a"),
        ("gaps", .str "b"), ("suggestions", .str "c")]

/-! ## The claims -/

/-- **C1.** For the reply
`{"score":85,"summary":"s","strengths":"a","gaps":"b","suggestions":"c"}`,
plain or wrapped in a ```` ```json … ``` ```` fence, the
normalize-then-parse-then-validate pipeline succeeds and returns the
evaluation result with `score = 85`, `summary = "s"`, `strengths = "a"`,
`gaps = "b"`, `suggestions = "c"`, all five fields carried verbatim. -/
theorem c1_wellformed_roundtrip :
    evaluateCore (some (mkTextResponse wellFormedReply)) =
      successOutcome wellFormedResult ∧
    evaluateCore (some (mkTextResponse
        ("```json\n".toList ++ wellFormedReply ++ "\n```".toList))) =
      successOutcome wellFormedResult :=
  ⟨rfl, rfl⟩

/-- **C4.** Whenever the AI reply's extracted text is non-empty and its
cleaned form fails to parse as JSON, `evaluate` returns the "malformed"
outcome (`ok : false`, the malformed-reply message, `result : null`),
which is distinct from the "incomplete analysis" outcome; the parse
failure is handled inside `evaluate` (the model is a total function),
never propagated. -/
theorem c4_malformed_reply (r : GenResponse) (t : List Char)
    (hx : extractText r = some t) (hne : t ≠ [])
    (hp : jsonParse (parseAIResponse t) = none) :
    evaluateCore (some r) = malformedOutcome ∧
    malformedOutcome ≠ incompleteOutcome := by
  refine ⟨?_, fun h => absurd (congrArg EvalOutcome.message h) (by decide)⟩
  rw [evaluateCore_eq_of_text r t hx hne, hp]

/-- Witness for C4 at the concrete unparsable reply `"not json"`. -/
theorem c4_malformed_reply_witness :
    evaluateCore (some (mkTextResponse "not json".toList)) =
      malformedOutcome ∧
    malformedOutcome ≠ incompleteOutcome :=
  c4_malformed_reply _ "not json".toList rfl (by decide) rfl

/-- **C5.** Every transport-level failure of the AI call (non-2xx HTTP
status, network error — and a 2xx body that is not JSON) makes
`queryGemini` return `null` instead of propagating the exception, and
`evaluate` then returns the "service unavailable" outcome with
`ok : false` and `result : null`; the modelled functions are total, so no
thrown error escapes this path. -/
theorem c5_transport_failure (status : Nat) (jobText cvText : List Char) :
    queryGemini (.httpError status) = none ∧
    queryGemini .networkError = none ∧
    evaluate (.ok jobText) (.ok cvText) (.httpError status) =
      unavailableOutcome ∧
    evaluate (.ok jobText) (.ok cvText) .networkError =
      unavailableOutcome :=
  ⟨rfl, rfl, rfl, rfl⟩

/-- **C6.** For every pair of uploaded files, the `analyze` handler passes
the `cv` file as `evaluate`'s first (`jd`) parameter and the `jd` file as
its second (`cv`) parameter, so the CV's text lands under the
`**JOB DESCRIPTION:**` label of the Gemini payload and the job
description's text under the `**RESUME/CV:**` label. -/
theorem c6_analyze_swaps_files (cv jd : FileModel) :
    analyzeParts cv jd =
      [promptText,
       "\n\n**JOB DESCRIPTION:**\n" ++ cv.text,
       "\n\n**RESUME/CV:**\n" ++ jd.text] :=
  rfl

/-- **C10.** Every return value of `evaluate` is the tri-state
`{ok, message, result}` envelope (its type); on every failure path `ok` is
`false` and `result` is `null`, and `ok` is `true` only when `result`
carries an object that passed the five-field validation.  The model is a
total function, so no exception crosses the boundary. -/
theorem c10_tristate_envelope (jdP cvP : PdfOutcome) (t : TransportOutcome) :
    ((evaluate jdP cvP t).ok = false → (evaluate jdP cvP t).result = none) ∧
    ((evaluate jdP cvP t).ok = true →
      ∃ v, (evaluate jdP cvP t).result = some v ∧
        isValidEvaluatorResult v = true) := by
  have hc : evaluate jdP cvP t = pdfErrorOutcome ∨
      ∃ o, evaluate jdP cvP t = evaluateCore o := by
    cases jdP with
    | extractError => exact Or.inl rfl
    | ok jt =>
      cases cvP with
      | extractError => exact Or.inl rfl
      | ok ct => exact Or.inr ⟨queryGemini t, rfl⟩
  rcases hc with h | ⟨o, h⟩
  · rw [h]
    exact ⟨fun _ => rfl, fun hok => absurd hok (by decide)⟩
  · rw [h]
    rcases evaluateCore_cases o with h1 | h1 | h1 | h1 | ⟨v, hv, h1⟩
    · rw [h1]
      exact ⟨fun _ => rfl, fun hok => absurd hok (by decide)⟩
    · rw [h1]
      exact ⟨fun _ => rfl, fun hok => absurd hok (by decide)⟩
    · rw [h1]
      exact ⟨fun _ => rfl, fun hok => absurd hok (by decide)⟩
    · rw [h1]
      exact ⟨fun _ => rfl, fun hok => absurd hok (by decide)⟩
    · rw [h1]
      exact ⟨fun hko => absurd hko (by simp [successOutcome]),
        fun _ => ⟨v, rfl, hv⟩⟩

/-- Witness for C10: a failing input yields a `null` result, a successful
one a validated object. -/
theorem c10_tristate_envelope_witness :
    (evaluate (.ok []) (.ok []) .networkError).result = none ∧
    ∃ v, (evaluate (.ok []) (.ok [])
        (.success (mkTextResponse wellFormedReply))).result = some v ∧
      isValidEvaluatorResult v = true :=
  ⟨(c10_tristate_envelope _ _ _).1 rfl,
   (c10_tristate_envelope _ _ _).2 rfl⟩

/-- A reply whose object carries the five required fields plus a sixth. -/
def extraFieldReply : List Char :=
  "\x7b\"score\":1,\"summary\":\"s\",\"strengths\":\"s\",\"gaps\":\"s\",\"suggestions\":\"s\",\"extra\":true\x7d".toList

/-- The parse of `extraFieldReply`. -/
def extraFieldResult : JsonValue :=
  .obj [("score", .num 1), ("summary", .str "s"), ("strengths", .str "s"),
        ("gaps", .str "s"), ("suggestions", .str "s"), ("extra", .bool true)]

/-- **C3 counterexample.** The claim reads "accepts … if and only if it is
a non-null object exposing exactly a numeric score field and four string
fields": an object exposing those five fields *and a sixth one* is
accepted by the validator and by the whole pipeline, so acceptance is not
limited to objects exposing exactly the five fields. -/
theorem c3_exactly_counterexample :
    isValidEvaluatorResult extraFieldResult = true ∧
    evaluateCore (some (mkTextResponse extraFieldReply)) =
      successOutcome extraFieldResult :=
  ⟨rfl, rfl⟩

/-- **C3 (amended).** The shape validator accepts a parsed value iff it is
a (non-null) object whose `score` field holds a number and whose
`summary`, `strengths`, `gaps` and `suggestions` fields hold strings —
fields beyond these five are not constrained.  Whenever the parsed value
fails this validation, `evaluate` returns the "incomplete analysis"
outcome (`ok : false`, `result : null`), which is distinct from the
parse-failure outcome. -/
theorem c3_validator_characterization (v : JsonValue) (r : GenResponse)
    (t : List Char) :
    (isValidEvaluatorResult v = true ↔ RequiredShape v) ∧
    (extractText r = some t → t ≠ [] →
      jsonParse (parseAIResponse t) = some v →
      isValidEvaluatorResult v = false →
      evaluateCore (some r) = incompleteOutcome) ∧
    incompleteOutcome ≠ malformedOutcome := by
  refine ⟨valid_iff_requiredShape v, ?_,
    fun h => absurd (congrArg EvalOutcome.message h) (by decide)⟩
  intro hx hne hp hv
  rw [evaluateCore_eq_of_parsed r t v hx hne hp, if_neg (by simp [hv])]

/-- Witness for C3: a reply missing four of the five fields is rejected
with the "incomplete analysis" outcome. -/
theorem c3_validator_characterization_witness :
    evaluateCore (some (mkTextResponse "\x7b\"score\":1\x7d".toList)) =
      incompleteOutcome :=
  (c3_validator_characterization (.obj [("score", .num 1)]) _
    "\x7b\"score\":1\x7d".toList).2.1 rfl (by decide) rfl rfl

/-- **C7 counterexample.** The input `` `x` `` does not match the
fenced-block pattern, yet the normalizer does not pass it through
unchanged: the residual backtick cleanup strips its edge backticks. -/
theorem c7_passthrough_counterexample :
    fenceShape (trim "`x`".toList) = false ∧
    parseAIResponse "`x`".toList ≠ trim "`x`".toList := by
  decide

/-- **C7 (amended).** For every input whose trimmed form neither starts
nor ends with a backtick character (hence in particular matches no fence
pattern), the normalizer returns the trimmed text unchanged — interior
backticks are preserved. -/
theorem c7_unfenced_passthrough (l : List Char)
    (h1 : (trim l).head? ≠ some '`') (h2 : (trim l).getLast? ≠ some '`') :
    parseAIResponse l = trim l :=
  parseAIResponse_of_no_edge_ticks l h1 h2

/-- Witness for C7 on an input with an interior backtick. -/
theorem c7_unfenced_passthrough_witness :
    parseAIResponse " a ` b ".toList = trim " a ` b ".toList :=
  c7_unfenced_passthrough " a ` b ".toList (by decide) (by decide)

/-- **C8 counterexample.** The claim reads "each file's size is under the
5 MiB ceiling": a file of exactly 5 MiB (5242880 bytes, not under the
ceiling) passes the gate, because the schema checks
`file.size <= MAX_FILE_SIZE`. -/
theorem c8_gate_counterexample :
    analyzeGate (some ⟨5 * 1024 * 1024, "application/pdf"⟩)
        (some ⟨4, "application/pdf"⟩) = true ∧
    ¬ (5 * 1024 * 1024 < 5 * 1024 * 1024) := by
  decide

lemma pdfFileCheck_iff (f : UploadFile) :
    pdfFileCheck f = true ↔
      f.size ≤ MAX_FILE_SIZE ∧ f.type = "application/pdf" := by
  cases h : f.type == "application/pdf" with
  | true =>
    have he : f.type = "application/pdf" := by simpa using h
    simp [pdfFileCheck, ALLOWED_FILE_TYPES, List.contains, List.elem, h, he]
  | false =>
    have he : ¬ (f.type = "application/pdf") := by simpa using h
    simp [pdfFileCheck, ALLOWED_FILE_TYPES, List.contains, List.elem, h, he]

/-- **C8 (amended).** The upload gate accepts a request iff both named
files are present, each of size at most the 5 MiB ceiling and each
declaring the `application/pdf` media type; the gate is the input schema
of the handler, so rejection happens before text extraction is
attempted. -/
theorem c8_gate_characterization (cv jd : Option UploadFile) :
    analyzeGate cv jd = true ↔
      ∃ c j, cv = some c ∧ jd = some j ∧
        c.size ≤ MAX_FILE_SIZE ∧ c.type = "application/pdf" ∧
        j.size ≤ MAX_FILE_SIZE ∧ j.type = "application/pdf" := by
  cases cv with
  | none =>
    simp only [analyzeGate]
    constructor
    · intro h
      cases jd <;> cases h
    · rintro ⟨c, j, hc, -⟩
      cases hc
  | some c =>
    cases jd with
    | none =>
      constructor
      · intro h
        cases h
      · rintro ⟨c', j', -, hj, -⟩
        cases hj
    | some j =>
      have hg : analyzeGate (some c) (some j) =
          (pdfFileCheck c && pdfFileCheck j) := rfl
      rw [hg, Bool.and_eq_true, pdfFileCheck_iff, pdfFileCheck_iff]
      constructor
      · rintro ⟨⟨h1, h2⟩, h3, h4⟩
        exact ⟨c, j, rfl, rfl, h1, h2, h3, h4⟩
      · rintro ⟨c', j', hc, hj, h1, h2, h3, h4⟩
        cases hc
        cases hj
        exact ⟨⟨h1, h2⟩, h3, h4⟩

/-- Witness for C8: two small PDF files pass the gate. -/
theorem c8_gate_characterization_witness :
    analyzeGate (some ⟨1000, "application/pdf"⟩)
      (some ⟨2000, "application/pdf"⟩) = true :=
  (c8_gate_characterization _ _).mpr
    ⟨_, _, rfl, rfl, by decide, rfl, by decide, rfl⟩

/-! ## Fenced wrapping of an arbitrary content (claim C2) -/

/-- Wrap a content in a fenced block: opening fence with the (possibly
empty) language tag, a newline, the content, a newline, closing fence. -/
def fenceWrap (tag content : List Char) : List Char :=
  tick3 ++ tag ++ '\n' :: (content ++ '\n' :: tick3)

lemma trimL_eq_self {l : List Char} {a : Char} (h : l.head? = some a)
    (ha : isJsWs a = false) : trimL l = l := by
  cases l with
  | nil => simp at h
  | cons b t =>
    have hb : b = a := by simpa using h
    simp [trimL, List.dropWhile_cons, hb, ha]

lemma trimR_eq_self {l : List Char} {b : Char} (h : l.getLast? = some b)
    (hb : isJsWs b = false) : trimR l = l := by
  unfold trimR
  have h' : l.reverse.head? = some b := by
    rw [List.head?_reverse]
    exact h
  have := trimL_eq_self h' hb
  rw [show l.reverse.dropWhile isJsWs = trimL l.reverse from rfl, this,
    List.reverse_reverse]

lemma trim_eq_self {l : List Char} {a b : Char} (h1 : l.head? = some a)
    (ha : isJsWs a = false) (h2 : l.getLast? = some b)
    (hb : isJsWs b = false) : trim l = l := by
  unfold trim
  rw [trimL_eq_self h1 ha, trimR_eq_self h2 hb]

lemma trim_trimL (l : List Char) : trim (trimL l) = trim l := by
  unfold trim
  rw [trimL_idem]

lemma fenceWrap_getLast? (tag c : List Char) :
    (fenceWrap tag c).getLast? = some '`' := by
  have h : fenceWrap tag c =
      (tick3 ++ tag ++ '\n' :: (c ++ ['\n', '`', '`'])) ++ ['`'] := by
    simp [fenceWrap, tick3]
  rw [h, List.getLast?_concat]

lemma fenceShape_fenceWrap (tag c : List Char) :
    fenceShape (fenceWrap tag c) = true := by
  simp only [fenceShape, Bool.and_eq_true, decide_eq_true_eq]
  refine ⟨⟨?_, ?_⟩, ?_⟩
  · simp only [fenceWrap, tick3, List.length_append, List.length_cons]
    omega
  · refine List.isPrefixOf_iff_prefix.mpr
      ⟨tag ++ '\n' :: (c ++ '\n' :: tick3), ?_⟩
    simp [fenceWrap, List.append_assoc]
  · refine List.isSuffixOf_iff_suffix.mpr
      ⟨tick3 ++ tag ++ '\n' :: (c ++ ['\n']), ?_⟩
    simp [fenceWrap, tick3]

lemma trim_fenceWrap (tag c : List Char) :
    trim (fenceWrap tag c) = fenceWrap tag c :=
  trim_eq_self (a := '`') (b := '`') rfl (by decide)
    (fenceWrap_getLast? tag c) (by decide)

lemma fenceMiddle_fenceWrap (tag c : List Char) :
    fenceMiddle (fenceWrap tag c) = tag ++ '\n' :: (c ++ ['\n']) := by
  have h : fenceWrap tag c =
      tick3 ++ ((tag ++ '\n' :: (c ++ ['\n'])) ++ tick3) := by
    simp [fenceWrap, tick3]
  rw [fenceMiddle, h]
  have hdrop : List.drop 3 (tick3 ++ ((tag ++ '\n' :: (c ++ ['\n'])) ++ tick3)) =
      (tag ++ '\n' :: (c ++ ['\n'])) ++ tick3 := rfl
  have hlen : (tick3 ++ ((tag ++ '\n' :: (c ++ ['\n'])) ++ tick3)).length - 6 =
      (tag ++ '\n' :: (c ++ ['\n'])).length := by
    simp [tick3]
    omega
  rw [hdrop, hlen]
  exact List.take_left _ _

lemma dropFenceTag_tagged (tag X : List Char)
    (htag : tag ∈ fenceTags ∨ tag = []) :
    dropFenceTag (tag ++ '\n' :: X) = '\n' :: X := by
  rcases htag with h | rfl
  · simp only [fenceTags, List.mem_cons, List.not_mem_nil, or_false] at h
    rcases h with rfl | rfl | rfl | rfl | rfl <;> rfl
  · rfl

lemma trimL_ne_nil_of_trim_ne_nil {c : List Char} (h : trim c ≠ []) :
    trimL c ≠ [] := by
  intro hnil
  apply h
  unfold trim
  rw [hnil]
  rfl

lemma capturedGroup_fenceWrap (tag c : List Char)
    (htag : tag ∈ fenceTags ∨ tag = []) (hc : trimL c ≠ []) :
    capturedGroup (fenceWrap tag c) = trimL c := by
  have hmid : (dropFenceTag (fenceMiddle (fenceWrap tag c))).dropWhile isJsWs =
      trimL c ++ ['\n'] := by
    rw [fenceMiddle_fenceWrap, dropFenceTag_tagged tag _ htag]
    rw [List.dropWhile_cons, if_pos (by decide)]
    rw [List.dropWhile_append]
    have hie : (c.dropWhile isJsWs).isEmpty = false := by
      cases hdw : c.dropWhile isJsWs with
      | nil => exact absurd hdw hc
      | cons a t => rfl
    rw [hie]
    simp only [Bool.false_eq_true, if_false]
    rfl
  unfold capturedGroup
  rw [hmid]
  simp [List.getLast?_concat, List.dropLast_concat]

/-- **C2 counterexample.** Wrapping the empty content in a `json`-tagged
fenced block does not normalize to the same thing as the unwrapped empty
content: the capture group is empty, hence falsy, so the fence branch is
skipped and the backtick cleanup leaves the literal text `json`. -/
theorem c2_fence_counterexample :
    parseAIResponse (fenceWrap "json".toList []) ≠ parseAIResponse [] ∧
    parseAIResponse (fenceWrap "json".toList []) = "json".toList ∧
    parseAIResponse ([] : List Char) = [] := by
  decide

/-- **C2 (amended).** For every content whose trimmed form is non-empty
and not itself fence-shaped, and every language tag the fence regex
recognizes (or no tag at all), normalizing the fenced wrapping yields
exactly what normalizing the unwrapped content yields. -/
theorem c2_fence_transparent (tag c : List Char)
    (htag : tag ∈ fenceTags ∨ tag = []) (h1 : trim c ≠ [])
    (h2 : fenceShape (trim c) = false) :
    parseAIResponse (fenceWrap tag c) = parseAIResponse c := by
  have hcap : capturedGroup (fenceWrap tag c) = trimL c :=
    capturedGroup_fenceWrap tag c htag (trimL_ne_nil_of_trim_ne_nil h1)
  have hne : (capturedGroup (fenceWrap tag c)).isEmpty = false := by
    rw [hcap]
    cases hdw : trimL c with
    | nil => exact absurd hdw (trimL_ne_nil_of_trim_ne_nil h1)
    | cons a t => rfl
  have hL : parseAIResponse (fenceWrap tag c) =
      trim (stripTicks (trim (capturedGroup (fenceWrap tag c)))) := by
    simp [parseAIResponse, trim_fenceWrap, fenceShape_fenceWrap, hne]
  have hR : parseAIResponse c = trim (stripTicks (trim c)) := by
    simp [parseAIResponse, h2]
  rw [hL, hR, hcap, trim_trimL]

/-- Witness for C2 on a `ts`-tagged fenced JSON object. -/
theorem c2_fence_transparent_witness :
    parseAIResponse (fenceWrap "ts".toList "\x7b\"a\":1\x7d".toList) =
      parseAIResponse "\x7b\"a\":1\x7d".toList :=
  c2_fence_transparent "ts".toList "\x7b\"a\":1\x7d".toList
    (Or.inl (by decide)) (by decide) (by decide)

/-! ## Shape of JSON-parseable text (claim C9)

A successful `jsonParse` pins down the first and last non-whitespace
character of its input: the first is a value-opening character, the last a
value-closing one, and neither is a backtick or whitespace.  This makes the
normalizer act as a plain `trim` on parseable text, which gives
idempotence. -/

/-- Characters that can open a JSON value. -/
def jsonStartChar (c : Char) : Bool :=
  c = '{' || c = '[' || c = '"' || c = 't' || c = 'f' || c = 'n' ||
  c = '-' || c.isDigit

/-- Characters that can close a JSON value (`}`, `]`, `"`, the `e` of
`true`/`false`, the `l` of `null`, or a digit). -/
def jsonEndChar (c : Char) : Bool :=
  c = '}' || c = ']' || c = '"' || c = 'e' || c = 'l' || c.isDigit

lemma notWs_notTick_of_digit {c : Char} (h : c.isDigit = true) :
    isJsWs c = false ∧ c ≠ '`' := by
  have h1 : '0' ≤ c ∧ c ≤ '9' := by simpa [Char.isDigit] using h
  constructor
  · by_contra hws
    have hws' : isJsWs c = true := by simpa using hws
    simp only [isJsWs, Bool.or_eq_true, decide_eq_true_eq,
      Bool.and_eq_true] at hws'
    rcases hws' with ((((((((((((((rfl | rfl) | rfl) | rfl) | rfl) | rfl) |
      rfl) | rfl) | ⟨hlo, -⟩) | rfl) | rfl) | rfl) | rfl) | rfl) | rfl)
    · exact absurd h1.1 (by decide)
    · exact absurd h1.1 (by decide)
    · exact absurd h1.1 (by decide)
    · exact absurd h1.1 (by decide)
    · exact absurd h1.1 (by decide)
    · exact absurd h1.1 (by decide)
    · exact absurd h1.2 (by decide)
    · exact absurd h1.2 (by decide)
    · exact absurd (le_trans hlo h1.2) (by decide)
    · exact absurd h1.2 (by decide)
    · exact absurd h1.2 (by decide)
    · exact absurd h1.2 (by decide)
    · exact absurd h1.2 (by decide)
    · exact absurd h1.2 (by decide)
    · exact absurd h1.2 (by decide)
  · rintro rfl
    exact absurd h1.2 (by decide)

lemma jsonStartChar_good {c : Char} (h : jsonStartChar c = true) :
    isJsWs c = false ∧ c ≠ '`' := by
  simp only [jsonStartChar, Bool.or_eq_true, decide_eq_true_eq] at h
  rcases h with ((((((rfl | rfl) | rfl) | rfl) | rfl) | rfl) | rfl) | hd
  · exact ⟨by decide, by decide⟩
  · exact ⟨by decide, by decide⟩
  · exact ⟨by decide, by decide⟩
  · exact ⟨by decide, by decide⟩
  · exact ⟨by decide, by decide⟩
  · exact ⟨by decide, by decide⟩
  · exact ⟨by decide, by decide⟩
  · exact notWs_notTick_of_digit hd

lemma jsonEndChar_good {c : Char} (h : jsonEndChar c = true) :
    isJsWs c = false ∧ c ≠ '`' := by
  simp only [jsonEndChar, Bool.or_eq_true, decide_eq_true_eq] at h
  rcases h with ((((rfl | rfl) | rfl) | rfl) | rfl) | hd
  · exact ⟨by decide, by decide⟩
  · exact ⟨by decide, by decide⟩
  · exact ⟨by decide, by decide⟩
  · exact ⟨by decide, by decide⟩
  · exact ⟨by decide, by decide⟩
  · exact notWs_notTick_of_digit hd

lemma exists_append_cons_of_tail {rest r : List Char} (c : Char)
    (h : ∃ p, rest = p ++ '"' :: r) : ∃ p, c :: rest = p ++ '"' :: r := by
  obtain ⟨p, rfl⟩ := h
  exact ⟨c :: p, rfl⟩

/-- `parseStringBody` consumes its input up to and including the closing
quote: the remainder is preceded by a `"` in the original input. -/
lemma parseStringBody_consumed : ∀ (l s r : List Char),
    parseStringBody l = some (s, r) → ∃ p, l = p ++ '"' :: r := by
  intro l
  induction l using parseStringBody.induct <;>
    intro s r h <;>
    simp only [parseStringBody] at h <;>
    try split at h
  all_goals
    first
    | exact Option.noConfusion h
    | (simp only [Option.some.injEq, Prod.mk.injEq] at h
       obtain ⟨h1, h2⟩ := h
       subst h2
       exact ⟨[], rfl⟩)
    | (rw [Option.map_eq_some'] at h
       obtain ⟨⟨s', r'⟩, hrec, heq⟩ := h
       simp only [Prod.mk.injEq] at heq
       obtain ⟨h1, h2⟩ := heq
       subst h2
       repeat apply exists_append_cons_of_tail
       solve_by_elim)
    | simp_all

/-! ### What each number parser consumes -/

/-- The property that drives C9: what a parser consumed from `l` to leave
`r` behind ends with a value-closing character. -/
def ConsumedEnds (l r : List Char) : Prop :=
  ∃ pre c, l = pre ++ c :: r ∧ jsonEndChar c = true

lemma ConsumedEnds.mono {l l' r : List Char} (hs : ∃ p, l = p ++ l')
    (hc : ConsumedEnds l' r) : ConsumedEnds l r := by
  obtain ⟨p, rfl⟩ := hs
  obtain ⟨pre, c, he, hend⟩ := hc
  exact ⟨p ++ pre, c, by rw [he, List.append_assoc], hend⟩

lemma ConsumedEnds.to_suffix {l r : List Char} (h : ConsumedEnds l r) :
    ∃ p, l = p ++ r := by
  obtain ⟨pre, c, he, -⟩ := h
  exact ⟨pre ++ [c], by rw [he]; simp⟩

lemma suffix_trans {l m n : List Char} (h1 : ∃ p, l = p ++ m)
    (h2 : ∃ p, m = p ++ n) : ∃ p, l = p ++ n := by
  obtain ⟨p, rfl⟩ := h1
  obtain ⟨q, rfl⟩ := h2
  exact ⟨p ++ q, by simp⟩

lemma skipWs_split (l : List Char) : l = l.takeWhile isJsonWs ++ skipWs l :=
  (List.takeWhile_append_dropWhile _ _).symm

lemma skipWs_cons_suffix {x y : List Char} {c : Char}
    (h : skipWs x = c :: y) : ∃ p, x = p ++ y := by
  refine ⟨x.takeWhile isJsonWs ++ [c], ?_⟩
  conv_lhs => rw [skipWs_split x]
  rw [h]
  simp

lemma consumedEnds_of_skipWs {x rest : List Char} (lit : List Char)
    {c : Char} (h : skipWs x = lit ++ c :: rest)
    (hc : jsonEndChar c = true) : ConsumedEnds x rest := by
  refine ⟨x.takeWhile isJsonWs ++ lit, c, ?_, hc⟩
  conv_lhs => rw [skipWs_split x]
  rw [h]
  simp

lemma parseStringBody_consumedEnds {l s r : List Char}
    (h : parseStringBody l = some (s, r)) : ConsumedEnds l r := by
  obtain ⟨p, hp⟩ := parseStringBody_consumed l s r h
  exact ⟨p, '"', hp, by decide⟩

/-- A non-empty run of digits splits the input around its final digit. -/
lemma digits_chunk (l : List Char) (h : l.takeWhile Char.isDigit ≠ []) :
    ∃ p c, l = p ++ c :: l.dropWhile Char.isDigit ∧ c.isDigit = true := by
  refine ⟨(l.takeWhile Char.isDigit).dropLast,
    (l.takeWhile Char.isDigit).getLast h, ?_, ?_⟩
  · conv_lhs => rw [← List.takeWhile_append_dropWhile (p := Char.isDigit) (l := l)]
    conv_lhs => rw [← List.dropLast_append_getLast h]
    simp
  · exact List.mem_takeWhile_imp (List.getLast_mem h)

lemma parseExpDigits_consumed {neg : Bool} {intDs fracDs : List Char}
    {esign : Int} {r2 : List Char} {q : ℚ} {rest : List Char}
    (h : parseExpDigits neg intDs fracDs esign r2 = some (q, rest)) :
    ∃ p c, r2 = p ++ c :: rest ∧ c.isDigit = true := by
  unfold parseExpDigits at h
  dsimp only at h
  split at h
  · exact Option.noConfusion h
  · rename_i hne
    injection h with h1
    have h2 : r2.dropWhile Char.isDigit = rest := congrArg Prod.snd h1
    subst h2
    apply digits_chunk
    intro hnil
    exact hne (by rw [hnil]; rfl)

lemma consumedEnds_of_expDigits {neg : Bool} {intDs fracDs : List Char}
    {esign : Int} {r2 : List Char} {q : ℚ} {rest : List Char}
    (pre : List Char)
    (h : parseExpDigits neg intDs fracDs esign r2 = some (q, rest)) :
    ConsumedEnds (pre ++ r2) rest := by
  obtain ⟨p, c, he, hd⟩ := parseExpDigits_consumed h
  exact ⟨pre ++ p, c, by rw [he, List.append_assoc],
    by simp [jsonEndChar, hd]⟩

lemma parseExpPart_consumed {neg : Bool} {intDs fracDs r0 : List Char}
    {q : ℚ} {rest : List Char}
    (h : parseExpPart neg intDs fracDs r0 = some (q, rest)) :
    rest = r0 ∨ ConsumedEnds r0 rest := by
  unfold parseExpPart at h
  split at h
  · exact Or.inr (consumedEnds_of_expDigits ['e', '+'] h)
  · exact Or.inr (consumedEnds_of_expDigits ['e', '-'] h)
  · exact Or.inr (consumedEnds_of_expDigits ['e'] h)
  · exact Or.inr (consumedEnds_of_expDigits ['E', '+'] h)
  · exact Or.inr (consumedEnds_of_expDigits ['E', '-'] h)
  · exact Or.inr (consumedEnds_of_expDigits ['E'] h)
  · injection h with h1
    exact Or.inl (congrArg Prod.snd h1).symm

lemma parseFracPart_consumed {neg : Bool} {intDs r1 : List Char} {q : ℚ}
    {rest : List Char} (h : parseFracPart neg intDs r1 = some (q, rest)) :
    rest = r1 ∨ ConsumedEnds r1 rest := by
  unfold parseFracPart at h
  split at h
  · rename_i r2
    dsimp only at h
    split at h
    · exact Option.noConfusion h
    · rename_i hne
      obtain ⟨p, cd, he2, hd⟩ := digits_chunk r2
        (fun hnil => hne (by rw [hnil]; rfl))
      rcases parseExpPart_consumed h with rfl | hc
      · refine Or.inr ⟨'.' :: p, cd, ?_, by simp [jsonEndChar, hd]⟩
        show '.' :: r2 = '.' :: (p ++ cd :: List.dropWhile Char.isDigit r2)
        exact congrArg ('.' :: ·) he2
      · refine Or.inr (ConsumedEnds.mono ⟨'.' :: p ++ [cd], ?_⟩ hc)
        conv_lhs => rw [he2]
        simp
  · exact parseExpPart_consumed h

lemma parseNumberBody_consumed {neg : Bool} {l1 : List Char} {q : ℚ}
    {rest : List Char} (h : parseNumberBody neg l1 = some (q, rest)) :
    ConsumedEnds l1 rest := by
  unfold parseNumberBody at h
  split at h
  · rename_i c t
    split at h
    · rename_i hd
      dsimp only at h
      split at h
      · exact Option.noConfusion h
      · have htw : (c :: t).takeWhile Char.isDigit ≠ [] := by
          intro hnil
          rw [List.takeWhile_cons, if_pos hd] at hnil
          exact List.noConfusion hnil
        obtain ⟨p, cd, he, hdd⟩ := digits_chunk (c :: t) htw
        rcases parseFracPart_consumed h with rfl | hc
        · exact ⟨p, cd, he, by simp [jsonEndChar, hdd]⟩
        · refine ConsumedEnds.mono ⟨p ++ [cd], ?_⟩ hc
          conv_lhs => rw [he]
          simp
    · exact Option.noConfusion h
  · exact Option.noConfusion h

lemma parseNumber_consumed {l : List Char} {q : ℚ} {rest : List Char}
    (h : parseNumber l = some (q, rest)) : ConsumedEnds l rest := by
  unfold parseNumber at h
  split at h
  · exact ConsumedEnds.mono ⟨['-'], rfl⟩ (parseNumberBody_consumed h)
  · exact parseNumberBody_consumed h

/-! ### The first significant character of parseable text -/

lemma parseNumberBody_start {neg : Bool} {l1 : List Char} {q : ℚ}
    {r : List Char} (h : parseNumberBody neg l1 = some (q, r)) :
    ∃ c t, l1 = c :: t ∧ c.isDigit = true := by
  unfold parseNumberBody at h
  split at h
  · rename_i c t
    split at h
    · rename_i hd
      exact ⟨c, t, rfl, hd⟩
    · exact Option.noConfusion h
  · exact Option.noConfusion h

lemma parseNumber_start {l : List Char} {q : ℚ} {r : List Char}
    (h : parseNumber l = some (q, r)) :
    ∃ c t, l = c :: t ∧ jsonStartChar c = true := by
  unfold parseNumber at h
  split at h
  · rename_i l1
    exact ⟨'-', l1, rfl, by decide⟩
  · obtain ⟨c, t, he, hd⟩ := parseNumberBody_start h
    exact ⟨c, t, he, by simp [jsonStartChar, hd]⟩

set_option maxHeartbeats 1600000 in
lemma parseValue_start {f : Nat} {l : List Char} {v : JsonValue}
    {r : List Char} (h : parseValue f l = some (v, r)) :
    ∃ c t, skipWs l = c :: t ∧ jsonStartChar c = true := by
  cases f with
  | zero =>
    rw [parseValue] at h
    exact Option.noConfusion h
  | succ f =>
    rw [parseValue] at h
    split at h
    · rename_i r1 heq
      exact ⟨'{', r1, heq, by decide⟩
    · rename_i r1 heq
      exact ⟨'[', r1, heq, by decide⟩
    · rename_i r1 heq
      exact ⟨'"', r1, heq, by decide⟩
    · rename_i r1 heq
      exact ⟨'t', _, heq, by decide⟩
    · rename_i r1 heq
      exact ⟨'f', _, heq, by decide⟩
    · rename_i r1 heq
      exact ⟨'n', _, heq, by decide⟩
    · rw [Option.map_eq_some'] at h
      obtain ⟨⟨q, rest⟩, hp, -⟩ := h
      exact parseNumber_start hp

/-! ### The last significant character of parseable text -/

lemma parseStringBody_suffix {l s r : List Char}
    (h : parseStringBody l = some (s, r)) : ∃ p, l = p ++ r :=
  (parseStringBody_consumedEnds h).to_suffix

set_option maxHeartbeats 3200000 in
/-- Each of the three mutual parsers consumes input ending in a
value-closing character. -/
lemma parse_consumedEnds (f : Nat) :
    (∀ l v r, parseValue f l = some (v, r) → ConsumedEnds l r) ∧
    (∀ l acc v r, parseMembers f l acc = some (v, r) → ConsumedEnds l r) ∧
    (∀ l acc v r, parseElements f l acc = some (v, r) → ConsumedEnds l r) := by
  induction f with
  | zero =>
    refine ⟨?_, ?_, ?_⟩
    · intro l v r h
      rw [parseValue] at h
      exact Option.noConfusion h
    · intro l acc v r h
      rw [parseMembers] at h
      exact Option.noConfusion h
    · intro l acc v r h
      rw [parseElements] at h
      exact Option.noConfusion h
  | succ f ih =>
    obtain ⟨ihV, ihM, ihE⟩ := ih
    refine ⟨?_, ?_, ?_⟩
    · intro l v r h
      rw [parseValue] at h
      split at h
      · rename_i r1 heq
        split at h
        · rename_i r2 heq2
          injection h with h1
          have h2 : r2 = r := congrArg Prod.snd h1
          subst h2
          exact ConsumedEnds.mono (skipWs_cons_suffix heq)
            (consumedEnds_of_skipWs [] heq2 (by decide))
        · exact ConsumedEnds.mono (skipWs_cons_suffix heq) (ihM r1 [] v r h)
      · rename_i r1 heq
        split at h
        · rename_i r2 heq2
          injection h with h1
          have h2 : r2 = r := congrArg Prod.snd h1
          subst h2
          exact ConsumedEnds.mono (skipWs_cons_suffix heq)
            (consumedEnds_of_skipWs [] heq2 (by decide))
        · exact ConsumedEnds.mono (skipWs_cons_suffix heq) (ihE r1 [] v r h)
      · rename_i r1 heq
        rw [Option.map_eq_some'] at h
        obtain ⟨⟨s, rest⟩, hsb, heq3⟩ := h
        have h2 : rest = r := congrArg Prod.snd heq3
        subst h2
        exact ConsumedEnds.mono (skipWs_cons_suffix heq)
          (parseStringBody_consumedEnds hsb)
      · rename_i r1 heq
        injection h with h1
        have h2 : r1 = r := congrArg Prod.snd h1
        subst h2
        exact consumedEnds_of_skipWs ['t', 'r', 'u'] heq (by decide)
      · rename_i r1 heq
        injection h with h1
        have h2 : r1 = r := congrArg Prod.snd h1
        subst h2
        exact consumedEnds_of_skipWs ['f', 'a', 'l', 's'] heq (by decide)
      · rename_i r1 heq
        injection h with h1
        have h2 : r1 = r := congrArg Prod.snd h1
        subst h2
        exact consumedEnds_of_skipWs ['n', 'u', 'l'] heq (by decide)
      · rw [Option.map_eq_some'] at h
        obtain ⟨⟨q, rest⟩, hp, heq3⟩ := h
        have h2 : rest = r := congrArg Prod.snd heq3
        subst h2
        exact ConsumedEnds.mono ⟨l.takeWhile isJsonWs, skipWs_split l⟩
          (parseNumber_consumed hp)
    · intro l acc v r h
      rw [parseMembers] at h
      split at h
      · rename_i r1 heq
        split at h
        · rename_i k r2 heq2
          split at h
          · rename_i r3 heq3
            split at h
            · rename_i v1 r4 heq4
              have hsuf4 : ∃ p, l = p ++ r4 :=
                suffix_trans (skipWs_cons_suffix heq)
                  (suffix_trans (parseStringBody_suffix heq2)
                    (suffix_trans (skipWs_cons_suffix heq3)
                      ((ihV r3 v1 r4 heq4).to_suffix)))
              split at h
              · rename_i r5 heq5
                exact ConsumedEnds.mono
                  (suffix_trans hsuf4 (skipWs_cons_suffix heq5))
                  (ihM r5 _ v r h)
              · rename_i r5 heq5
                injection h with h1
                have h2 : r5 = r := congrArg Prod.snd h1
                subst h2
                exact ConsumedEnds.mono hsuf4
                  (consumedEnds_of_skipWs [] heq5 (by decide))
              · exact Option.noConfusion h
            · exact Option.noConfusion h
          · exact Option.noConfusion h
        · exact Option.noConfusion h
      · exact Option.noConfusion h
    · intro l acc v r h
      rw [parseElements] at h
      split at h
      · rename_i v1 r1 heq1
        split at h
        · rename_i r2 heq2
          exact ConsumedEnds.mono
            (suffix_trans ((ihV l v1 r1 heq1).to_suffix)
              (skipWs_cons_suffix heq2))
            (ihE r2 _ v r h)
        · rename_i r2 heq2
          injection h with h1
          have h2 : r2 = r := congrArg Prod.snd h1
          subst h2
          exact ConsumedEnds.mono ((ihV l v1 r1 heq1).to_suffix)
            (consumedEnds_of_skipWs [] heq2 (by decide))
        · exact Option.noConfusion h
      · exact Option.noConfusion h

/-! ### Assembling the shape of the trimmed input -/

lemma isJsonWs_isJsWs {c : Char} (h : isJsonWs c = true) :
    isJsWs c = true := by
  simp only [isJsonWs, Bool.or_eq_true, decide_eq_true_eq] at h
  rcases h with ((rfl | rfl) | rfl) | rfl
  · decide
  · decide
  · decide
  · decide

lemma trimL_append_allws {A t : List Char} {c : Char}
    (hA : ∀ x ∈ A, isJsWs x = true) (hc : isJsWs c = false) :
    trimL (A ++ c :: t) = c :: t := by
  unfold trimL
  rw [List.dropWhile_append, List.dropWhile_eq_nil_iff.mpr hA]
  simp [List.dropWhile_cons, hc]

lemma trimR_allws_tail {rest : List Char} {c : Char} (x : List Char)
    (hrest : ∀ a ∈ rest, isJsWs a = true) (hc : isJsWs c = false) :
    trimR (x ++ c :: rest) = x ++ [c] := by
  unfold trimR
  have h1 : (x ++ c :: rest).reverse = rest.reverse ++ c :: x.reverse := by
    simp
  rw [h1, List.dropWhile_append,
    List.dropWhile_eq_nil_iff.mpr (fun a ha => hrest a (by simpa using ha))]
  simp [List.dropWhile_cons, hc]

lemma jsonParse_inv {l : List Char} {v : JsonValue}
    (h : jsonParse l = some v) :
    ∃ rest, parseValue (l.length + 1) l = some (v, rest) ∧
      skipWs rest = [] := by
  unfold jsonParse at h
  split at h
  · rename_i v' rest heq
    split at h
    · rename_i hws
      injection h with h1
      subst h1
      exact ⟨rest, heq, hws⟩
    · exact Option.noConfusion h
  · exact Option.noConfusion h

/-- Parseable text trims to a string that neither starts nor ends with a
backtick (its first character opens a JSON value, its last closes one). -/
lemma jsonParse_trim_shape {l : List Char} {v : JsonValue}
    (h : jsonParse l = some v) :
    ((trim l).head? ≠ some '`') ∧ ((trim l).getLast? ≠ some '`') := by
  obtain ⟨rest, hpv, hws⟩ := jsonParse_inv h
  obtain ⟨c0, t0, hhead, hstart⟩ := parseValue_start hpv
  obtain ⟨pre, cE, hend, hendc⟩ :=
    (parse_consumedEnds (l.length + 1)).1 l v rest hpv
  have hrestws : ∀ a ∈ rest, isJsWs a = true := fun a ha =>
    isJsonWs_isJsWs (List.dropWhile_eq_nil_iff.mp hws a ha)
  have hAllA : ∀ x ∈ l.takeWhile isJsonWs, isJsWs x = true := fun x hx =>
    isJsonWs_isJsWs (List.mem_takeWhile_imp hx)
  have hc0 := jsonStartChar_good hstart
  have hcE := jsonEndChar_good hendc
  have e1 : l = l.takeWhile isJsonWs ++ (c0 :: t0) := by
    conv_lhs => rw [skipWs_split l]
    rw [hhead]
  have htrimL : trimL l = c0 :: t0 := by
    conv_lhs => rw [e1]
    exact trimL_append_allws hAllA hc0.1
  have htrimTail : trimR (c0 :: t0) = trim l := by
    rw [trim, htrimL]
  -- Relate the two decompositions of `l`.
  have hApre : l.takeWhile isJsonWs <+: l := ⟨skipWs l, (skipWs_split l).symm⟩
  have hprepre : pre <+: l := ⟨cE :: rest, hend.symm⟩
  have hlastEq : trim l = trimR (c0 :: t0) := htrimTail.symm
  have hshape : ∃ x, trim l = x ++ [cE] ∧ (trim l).head? = some c0 := by
    rcases List.prefix_or_prefix_of_prefix hApre hprepre with hAP | hPA
    · -- the whitespace prefix sits inside `pre`
      obtain ⟨p', hp'⟩ := hAP
      have hcomb : l.takeWhile isJsonWs ++ (c0 :: t0) =
          l.takeWhile isJsonWs ++ (p' ++ cE :: rest) := by
        conv_lhs => rw [← e1]
        conv_rhs => rw [← List.append_assoc, hp']
        exact hend
      have e3 : c0 :: t0 = p' ++ cE :: rest := List.append_cancel_left hcomb
      have htr : trim l = p' ++ [cE] := by
        rw [hlastEq, e3]
        exact trimR_allws_tail p' hrestws hcE.1
      refine ⟨p', htr, ?_⟩
      have hne : trimR (c0 :: t0) ≠ [] := by
        rw [← hlastEq, htr]
        simp
      rw [hlastEq, head?_trimR _ hne]
      rfl
    · -- `pre` sits inside the whitespace prefix
      obtain ⟨d, hd⟩ := hPA
      cases d with
      | nil =>
        have hpreA : pre = l.takeWhile isJsonWs := by simpa using hd
        have hcomb : l.takeWhile isJsonWs ++ (c0 :: t0) =
            l.takeWhile isJsonWs ++ (cE :: rest) := by
          conv_lhs => rw [← e1]
          rw [← hpreA]
          exact hend
        have e3 : c0 :: t0 = cE :: rest := List.append_cancel_left hcomb
        have htr : trim l = [cE] := by
          rw [hlastEq, e3]
          exact trimR_allws_tail [] hrestws hcE.1
        refine ⟨[], by simpa using htr, ?_⟩
        have hc0E : c0 = cE := by injection e3
        rw [htr, hc0E]
        rfl
      | cons d0 d' =>
        exfalso
        have hd0mem : d0 ∈ l.takeWhile isJsonWs := by
          rw [← hd]
          simp
        have hd0ws : isJsWs d0 = true := hAllA d0 hd0mem
        have hcomb : pre ++ (cE :: rest) =
            pre ++ (d0 :: (d' ++ c0 :: t0)) := by
          conv_lhs => rw [← hend]
          conv_rhs => rw [show pre ++ (d0 :: (d' ++ c0 :: t0)) =
            (pre ++ d0 :: d') ++ (c0 :: t0) by simp, hd]
          exact e1
        have hEd0 : cE = d0 := by
          have hcc := List.append_cancel_left hcomb
          injection hcc
        have hcEws : isJsWs cE = true := by
          rw [hEd0]
          exact hd0ws
        rw [hcE.1] at hcEws
        exact Bool.noConfusion hcEws
  obtain ⟨x, hx, hhd⟩ := hshape
  constructor
  · rw [hhd]
    intro hc
    exact hc0.2 (by injection hc)
  · rw [hx, List.getLast?_concat]
    intro hc
    exact hcE.2 (by injection hc)

/-- **C9.** Normalization is idempotent on strings that parse as JSON
(such a string has no code fences, since after trimming it starts with a
value-opening character): applying `parseAIResponse` twice yields the same
string — and hence the same parsed object — as applying it once. -/
theorem c9_normalizer_idempotent (l : List Char)
    (h : ∃ v, jsonParse l = some v) :
    parseAIResponse (parseAIResponse l) = parseAIResponse l := by
  obtain ⟨v, hv⟩ := h
  obtain ⟨h1, h2⟩ := jsonParse_trim_shape hv
  have hmain : parseAIResponse l = trim l :=
    parseAIResponse_of_no_edge_ticks l h1 h2
  rw [hmain]
  have h1' : (trim (trim l)).head? ≠ some '`' := by
    rw [trim_trim]
    exact h1
  have h2' : (trim (trim l)).getLast? ≠ some '`' := by
    rw [trim_trim]
    exact h2
  rw [parseAIResponse_of_no_edge_ticks (trim l) h1' h2', trim_trim]

/-- Witness for C9 on a concrete parseable reply. -/
theorem c9_normalizer_idempotent_witness :
    parseAIResponse (parseAIResponse "\x7b\"a\":1\x7d".toList) =
      parseAIResponse "\x7b\"a\":1\x7d".toList :=
  c9_normalizer_idempotent "\x7b\"a\":1\x7d".toList ⟨.obj [("a", .num 1)], rfl⟩

end Rolefit
